import Mathlib

/-!
# RecipeAllocator: shallow embedding and verification

Shallow embedding of `src/algorithm.py` (RecipeAllocator): the label
normalizer `obtain_numbers`, the greedy allocator `allocate_recipes`, the
fulfillment cascade `fulfil_orders`, and the axis construction performed by
`load_files`.

Modelling conventions:
* A numpy 1-d integer array is a `List Int`; positions are `Nat` indices.
* `np.argpartition(stock, -k)[-k:]` selects the indices of the `k` largest
  values.  numpy leaves the tie-break unspecified; we fix a concrete,
  documented tie-break (stable sort by value descending, so among equal
  values the lowest index is chosen first).  All theorems below are
  tie-break independent unless explicitly about the selection itself.
  For `k = 0` the Python slice `[-0:]` is `[0:]`, i.e. the *whole* array is
  selected — this real behaviour is reproduced by `effK`.
* Boolean-mask reads (`stocks[mask]`) copy; mask writes scatter a list of
  values back into the masked positions in order (`maskVals` / `scatter`).
* Python values reaching `obtain_numbers` are modelled by `PyVal`
  (strings, integers, and arbitrary non-string objects).
-/

/-- Category of a recipe / of an order cell (`box_type` in the source). -/
inductive Cat where
  | vegetarian : Cat
  | gourmet : Cat
deriving DecidableEq, Repr

/-- A Python value passed to / returned by `obtain_numbers`: a string, an
integer, or some other (non-string) object identified by a tag. -/
inductive PyVal where
  | str : String → PyVal
  | intVal : Int → PyVal
  | obj : Nat → PyVal
deriving DecidableEq, Repr

/-- The number dictionary of `obtain_numbers`
(`{"two": 2, "three": 3, "four": 4}`). -/
def numberdict : List (String × Int) := [("two", 2), ("three", 3), ("four", 4)]

/-- The characters before the first `'_'` (all of them when none occurs). -/
def firstSegChars : List Char → List Char
  | [] => []
  | c :: cs => if c = '_' then [] else c :: firstSegChars cs

/-- `string.split("_")[0]`: the segment before the first underscore
(the whole string when it contains no underscore). -/
def firstSeg (s : String) : String := String.mk (firstSegChars s.data)

/-- `obtain_numbers` from `src/algorithm.py` lines 8–31: a string whose
first underscore-separated segment is in `numberdict` becomes the
corresponding number; every other input is returned unchanged. -/
def obtain_numbers : PyVal → PyVal
  | .str s =>
      match numberdict.lookup (firstSeg s) with
      | some n => .intVal n
      | none => .str s
  | .intVal n => .intVal n
  | .obj t => .obj t

/-- Value-descending comparison used to order stock values. -/
def geInt : Int → Int → Prop := fun a b => b ≤ a

instance : DecidableRel geInt := fun a b => inferInstanceAs (Decidable (b ≤ a))

instance : IsTotal Int geInt := ⟨fun a b => le_total b a⟩

instance : IsTrans Int geInt := ⟨fun _ _ _ h1 h2 => le_trans h2 h1⟩

instance : IsAntisymm Int geInt := ⟨fun _ _ h1 h2 => le_antisymm h2 h1⟩

/-- Value-descending comparison on (index, value) pairs. -/
def pairGe : Nat × Int → Nat × Int → Prop := fun p q => q.2 ≤ p.2

instance : DecidableRel pairGe := fun p q => inferInstanceAs (Decidable (q.2 ≤ p.2))

instance : IsTotal (Nat × Int) pairGe := ⟨fun p q => le_total q.2 p.2⟩

instance : IsTrans (Nat × Int) pairGe := ⟨fun _ _ _ h1 h2 => le_trans h2 h1⟩

/-- The stock list tagged with its positions: `[(0, stock[0]), (1, stock[1]), …]`. -/
def indexed (stock : List Int) : List (Nat × Int) :=
  (List.range stock.length).map (fun i => (i, stock.getD i 0))

/-- The indexed stock sorted by value descending (stable, so ties are broken
by lowest index first).  This fixes the tie-break that
`np.argpartition` leaves unspecified. -/
def rankList (stock : List Int) : List (Nat × Int) :=
  List.insertionSort pairGe (indexed stock)

/-- The stock values sorted descending. -/
def sortDesc (stock : List Int) : List Int := List.insertionSort geInt stock

/-- The effective number of selected entries: `np.argpartition(stock, -k)[-k:]`
selects `k` entries for `k ≥ 1`, but the *whole* array for `k = 0`
(the Python slice `[-0:]` is `[0:]`). -/
def effK (len k : Nat) : Nat := if k = 0 then len else k

/-- `recipe_choices = np.argpartition(stock_levels, -N_recipes)[-N_recipes:]`
(source line 58): the indices of the `effK` largest stock values. -/
def recipeChoices (stock : List Int) (k : Nat) : List Nat :=
  ((rankList stock).take (effK stock.length k)).map Prod.fst

/-- `stock_levels[recipe_choices]`: the values at the selected indices. -/
def selVals (stock : List Int) (idxs : List Nat) : List Int :=
  idxs.map (fun i => stock.getD i 0)

/-- `stock_levels[recipe_choices] = stock_levels[recipe_choices] - N_portions`
(source line 65): subtract `p` at the selected positions. -/
def subtractAt (stock : List Int) (idxs : List Nat) (p : Int) : List Int :=
  (List.range stock.length).map
    (fun i => if i ∈ idxs then stock.getD i 0 - p else stock.getD i 0)

/-- The `for N_orders_left in range(N_orders, 0, -1)` loop of
`allocate_recipes` (source lines 56–67).  The fuel argument is the loop
counter `N_orders_left`; `.min() < N_portions` is rendered as
"some selected value is `< p`" (equivalent for the nonempty selections the
program produces). -/
def allocLoop (p : Int) (k : Nat) : List Int → Nat → List Int × Nat
  | stock, 0 => (stock, 0)
  | stock, n + 1 =>
      if (selVals stock (recipeChoices stock k)).any (fun v => v < p) then (stock, n + 1)
      else allocLoop p k (subtractAt stock (recipeChoices stock k) p) n

/-- `allocate_recipes(N_orders, stock_levels, N_portions, N_recipes)`
(source lines 35–67): guard `len(stock_levels) < N_recipes`, then the
per-order greedy loop. -/
def allocate_recipes (orders : Nat) (stock : List Int) (p : Int) (k : Nat) :
    List Int × Nat :=
  if stock.length < k then (stock, orders) else allocLoop p k stock orders

/-- One allocation round on the value multiset, in sorted view: subtract `p`
from the `kk` largest values and re-sort.  Used to reason about
`allocLoop`, whose unmet count depends only on the value multiset. -/
def stepSorted (p : Int) (kk : Nat) (l : List Int) : List Int :=
  sortDesc (((l.take kk).map (fun v => v - p)) ++ l.drop kk)

/-- The unmet count of the allocation loop computed on the sorted value
list: fail a round as soon as one of the `kk` largest values is `< p`. -/
def allocSorted (p : Int) (kk : Nat) : List Int → Nat → Nat
  | _, 0 => 0
  | l, n + 1 =>
      if (l.take kk).any (fun v => v < p) then n + 1
      else allocSorted p kk (stepSorted p kk l) n

/-- `stocks[mask]` for the boolean mask `box_type == c`: the stock values at
positions of category `c`, in order (a copy, as in numpy). -/
def maskVals (cats : List Cat) (stocks : List Int) (c : Cat) : List Int :=
  ((cats.zip stocks).filter (fun q => q.1 = c)).map Prod.snd

/-- `stocks[mask] = newVals`: scatter `newVals` back into the positions of
category `c`, in order; other positions keep their value. -/
def scatter : List Cat → List Int → Cat → List Int → List Int
  | [], _, _, _ => []
  | _ :: _, [], _, _ => []
  | c0 :: cs, v0 :: vs, c, nv =>
      if c0 = c then nv.headD v0 :: scatter cs vs c nv.tail
      else v0 :: scatter cs vs c nv

/-- One order cell of the three-axis order table:
category, portion size, recipes-per-box, order count. -/
structure Cell where
  cat : Cat
  portions : Int
  recipes : Nat
  count : Nat
deriving DecidableEq, Repr

/-- The body of the triple loop of `fulfil_orders` (source lines 100–124)
for a single cell, returning the success flag together with the pool as the
Python local `stocks` stands at that point.
* vegetarian: allocate against the vegetarian mask copy; on failure the
  pool is unchanged (the mutated copy is discarded); on success the copy is
  scattered back.
* gourmet: allocate against the gourmet mask copy; on success scatter it
  back; on failure retry the `unmet` remainder against the *whole* pool
  (which `allocate_recipes` mutates in place, so the resulting pool is its
  first component whether or not the retry succeeds). -/
def processCell (cats : List Cat) (stocks : List Int) (cell : Cell) :
    Bool × List Int :=
  match cell.cat with
  | Cat.vegetarian =>
      let res := allocate_recipes cell.count (maskVals cats stocks Cat.vegetarian)
        cell.portions cell.recipes
      if 0 < res.2 then (false, stocks)
      else (true, scatter cats stocks Cat.vegetarian res.1)
  | Cat.gourmet =>
      let res := allocate_recipes cell.count (maskVals cats stocks Cat.gourmet)
        cell.portions cell.recipes
      if 0 < res.2 then
        let res2 := allocate_recipes res.2 stocks cell.portions cell.recipes
        if 0 < res2.2 then (false, res2.1) else (true, res2.1)
      else (true, scatter cats stocks Cat.gourmet res.1)

/-- The cascade of `fulfil_orders` over a list of cells in visiting order:
stop with `false` at the first failing cell (returning the pool as the code
leaves it), otherwise thread the updated pool through. -/
def fulfilCells (cats : List Cat) : List Int → List Cell → Bool × List Int
  | stocks, [] => (true, stocks)
  | stocks, cell :: rest =>
      match processCell cats stocks cell with
      | (false, s) => (false, s)
      | (true, s) => fulfilCells cats s rest

/-- The cell visiting order of `fulfil_orders` (source lines 94–96): the
outer loop `j` runs over axis 1 of `OrdersDF` (the labels `Ordersdict[1]`,
passed as `N_recipes`), the middle loop `i` over the category axis
`[vegetarian, gourmet]`, the inner loop `k` over axis 2 (the labels
`Ordersdict[2]`, passed as `N_portions`). -/
def visitCells (orders : List (List (List Nat))) (axis1 : List Nat)
    (axis2 : List Int) : List Cell :=
  (List.range axis1.length).flatMap (fun j =>
    ([Cat.vegetarian, Cat.gourmet].zip (List.range 2)).flatMap (fun ci =>
      (List.range axis2.length).map (fun k =>
        { cat := ci.1
          portions := axis2.getD k 0
          recipes := axis1.getD j 0
          count := ((orders.getD ci.2 []).getD j []).getD k 0 })))

/-- `fulfil_orders(StockDF, OrdersDF, Ordersdict)` (source lines 69–128):
walk the cells in visiting order, also returning the final pool. -/
def fulfil_orders (cats : List Cat) (stocks : List Int)
    (orders : List (List (List Nat))) (axis1 : List Nat) (axis2 : List Int) :
    Bool × List Int :=
  fulfilCells cats stocks (visitCells orders axis1 axis2)

/-- The integer a label is converted to by the loader (labels outside the
vocabulary are passed through as strings by `obtain_numbers`; the loader
then sorts them together with numbers, which the spec leaves undefined —
such labels are modelled as `0` and never used by the claims). -/
def labelNum (s : String) : Int :=
  match obtain_numbers (PyVal.str s) with
  | PyVal.intVal n => n
  | _ => 0

/-- The axis-label construction of `load_files` (source lines 156–186) on
the §6 orders input (an association list: portion-size label ↦
(recipes-per-box label ↦ count)).  `pd.DataFrame.from_dict` makes the
*outer* keys the columns and the *inner* keys the index, so after
`sort_index(ascending=False)` on both axes:
`Ordersdict[1]` = the index = recipes-per-box labels, descending, and
`Ordersdict[2]` = the columns = portion-size labels, descending.
Returns `(Ordersdict[1], Ordersdict[2])`. -/
def load_axes (ordersCat : List (String × List (String × Nat))) :
    List Nat × List Int :=
  let cols := ordersCat.map (fun kv => labelNum kv.1)
  let idx := ((ordersCat.headD ("", [])).2).map (fun kv => labelNum kv.1)
  ((sortDesc idx).map Int.toNat, sortDesc cols)

/-! ## Unfolding helpers for the cascade -/

theorem fulfilCells_cons (cats : List Cat) (stocks : List Int) (cell : Cell)
    (rest : List Cell) :
    fulfilCells cats stocks (cell :: rest) =
      match processCell cats stocks cell with
      | (false, s) => (false, s)
      | (true, s) => fulfilCells cats s rest := by
  rcases h : processCell cats stocks cell with ⟨b, s⟩
  cases b <;> simp [fulfilCells, h]

theorem processCell_veg (cats : List Cat) (stocks : List Int) (p : Int) (r n : Nat) :
    processCell cats stocks ⟨Cat.vegetarian, p, r, n⟩ =
      (let res := allocate_recipes n (maskVals cats stocks Cat.vegetarian) p r
       if 0 < res.2 then (false, stocks)
       else (true, scatter cats stocks Cat.vegetarian res.1)) := rfl

theorem processCell_gourmet (cats : List Cat) (stocks : List Int) (p : Int) (r n : Nat) :
    processCell cats stocks ⟨Cat.gourmet, p, r, n⟩ =
      (let res := allocate_recipes n (maskVals cats stocks Cat.gourmet) p r
       if 0 < res.2 then
         let res2 := allocate_recipes res.2 stocks p r
         if 0 < res2.2 then (false, res2.1) else (true, res2.1)
       else (true, scatter cats stocks Cat.gourmet res.1)) := rfl

theorem allocate_recipes_zero (stock : List Int) (p : Int) (k : Nat) :
    allocate_recipes 0 stock p k = (stock, 0) := by
  unfold allocate_recipes
  split
  · rfl
  · rfl

/-! ## Claim theorems (first batch) -/

/-- C8: zero-demand identity — for every stock subset, portion size and
recipes-per-box (including `len(stock) < r`), `allocate_recipes 0 stock p r`
returns the stock unchanged with `unmet_count = 0`. -/
theorem c8_zero_demand_identity (stock : List Int) (p : Int) (k : Nat) :
    allocate_recipes 0 stock p k = (stock, 0) :=
  allocate_recipes_zero stock p k

/-- C5: insufficient recipe variety — whenever `len(stock) < recipes_per_box`,
`allocate_recipes` returns the stock subset completely unchanged and
`unmet_count = order_count`, for every order count and portion size. -/
theorem c5_insufficient_variety (n : Nat) (stock : List Int) (p : Int) (k : Nat)
    (h : stock.length < k) : allocate_recipes n stock p k = (stock, n) := by
  unfold allocate_recipes
  rw [if_pos h]

theorem c5_witness : ([1, 2] : List Int).length < 7 ∧
    allocate_recipes 3 [1, 2] 5 7 = ([1, 2], 3) :=
  ⟨by decide, c5_insufficient_variety 3 [1, 2] 5 7 (by decide)⟩

/-- C6: vegetarian short-circuit — if the vegetarian allocation of a cell
leaves `unmet_count > 0`, the run returns `false` immediately with the pool
untouched: no later cell is processed and no combined-pool fallback is
attempted (the result does not depend on `rest` at all). -/
theorem c6_veg_short_circuit (cats : List Cat) (stocks : List Int) (p : Int)
    (r n : Nat) (rest : List Cell)
    (h : 0 < (allocate_recipes n (maskVals cats stocks Cat.vegetarian) p r).2) :
    fulfilCells cats stocks (⟨Cat.vegetarian, p, r, n⟩ :: rest) = (false, stocks) := by
  rw [fulfilCells_cons, processCell_veg]
  simp only [if_pos h]

theorem c6_witness :
    0 < (allocate_recipes 1 (maskVals [Cat.vegetarian] [0] Cat.vegetarian) 2 1).2 ∧
    fulfilCells [Cat.vegetarian] [0]
        (⟨Cat.vegetarian, 2, 1, 1⟩ :: [⟨Cat.vegetarian, 2, 1, 0⟩]) = (false, [0]) :=
  ⟨by decide,
    c6_veg_short_circuit [Cat.vegetarian] [0] 2 1 1 [⟨Cat.vegetarian, 2, 1, 0⟩] (by decide)⟩

/-- C1: gourmet fallback widening — for a gourmet cell whose gourmet-only
allocation leaves `u > 0` unmet orders, the run retries exactly those `u`
orders against the combined full pool (the whole `stocks` list, vegetarian
and gourmet entries together) with the same portion size and recipes-per-box;
if the retry still has unmet orders the run returns `false` immediately, and
if the retry returns `0` the entire pool is replaced by the pool returned
from the combined-pool call, which is the baseline for all later cells. -/
theorem c1_gourmet_fallback (cats : List Cat) (stocks : List Int) (p : Int)
    (r n : Nat) (rest : List Cell)
    (h : 0 < (allocate_recipes n (maskVals cats stocks Cat.gourmet) p r).2) :
    fulfilCells cats stocks (⟨Cat.gourmet, p, r, n⟩ :: rest) =
      (if 0 < (allocate_recipes
            (allocate_recipes n (maskVals cats stocks Cat.gourmet) p r).2 stocks p r).2
       then (false, (allocate_recipes
            (allocate_recipes n (maskVals cats stocks Cat.gourmet) p r).2 stocks p r).1)
       else fulfilCells cats (allocate_recipes
            (allocate_recipes n (maskVals cats stocks Cat.gourmet) p r).2 stocks p r).1
            rest) := by
  rw [fulfilCells_cons, processCell_gourmet]
  simp only [if_pos h]
  by_cases h2 : 0 < (allocate_recipes
      (allocate_recipes n (maskVals cats stocks Cat.gourmet) p r).2 stocks p r).2
  · simp only [if_pos h2]
  · simp only [if_neg h2]

theorem c1_witness :
    0 < (allocate_recipes 1 (maskVals [Cat.gourmet] [0] Cat.gourmet) 1 1).2 ∧
    fulfilCells [Cat.gourmet] [0] (⟨Cat.gourmet, 1, 1, 1⟩ :: []) =
      (if 0 < (allocate_recipes
            (allocate_recipes 1 (maskVals [Cat.gourmet] [0] Cat.gourmet) 1 1).2 [0] 1 1).2
       then (false, (allocate_recipes
            (allocate_recipes 1 (maskVals [Cat.gourmet] [0] Cat.gourmet) 1 1).2 [0] 1 1).1)
       else fulfilCells [Cat.gourmet] (allocate_recipes
            (allocate_recipes 1 (maskVals [Cat.gourmet] [0] Cat.gourmet) 1 1).2 [0] 1 1).1
            []) :=
  ⟨by decide, c1_gourmet_fallback [Cat.gourmet] [0] 1 1 1 [] (by decide)⟩

/-- C10: atomicity of the failed gourmet-only attempt — when the gourmet-only
call leaves `u > 0` unmet orders, the continuation of the run is computed
from the *original* pool `stocks`: the subset mutated by the failed attempt
(extracted as a copy by the boolean mask) is never written back, so the
fallback call sees the stock exactly as it was before the gourmet-only
attempt, and the failed attempt's partial depletion is discarded. -/
theorem c10_failed_attempt_discarded (cats : List Cat) (stocks : List Int)
    (p : Int) (r n u : Nat) (rest : List Cell)
    (hu : (allocate_recipes n (maskVals cats stocks Cat.gourmet) p r).2 = u)
    (h : 0 < u) :
    fulfilCells cats stocks (⟨Cat.gourmet, p, r, n⟩ :: rest) =
      (match allocate_recipes u stocks p r with
       | (s2, u2) => if u2 = 0 then fulfilCells cats s2 rest else (false, s2)) := by
  rw [fulfilCells_cons, processCell_gourmet]
  simp only [hu, if_pos h]
  rcases hq : allocate_recipes u stocks p r with ⟨s2, u2⟩
  by_cases h2 : u2 = 0
  · subst h2
    simp
  · simp [h2, Nat.pos_of_ne_zero h2]

theorem c10_witness :
    (allocate_recipes 1 (maskVals [Cat.gourmet, Cat.vegetarian] [0, 5] Cat.gourmet) 1 2).2
        = 1 ∧
    fulfilCells [Cat.gourmet, Cat.vegetarian] [0, 5] (⟨Cat.gourmet, 1, 2, 1⟩ :: []) =
      (match allocate_recipes 1 [0, 5] 1 2 with
       | (s2, u2) => if u2 = 0 then fulfilCells [Cat.gourmet, Cat.vegetarian] s2 []
                     else (false, s2)) :=
  ⟨by decide,
    c10_failed_attempt_discarded [Cat.gourmet, Cat.vegetarian] [0, 5] 1 2 1 1 []
      (by decide) (by decide)⟩

/-- C9 (amended): label normalization — a string whose first
underscore-separated segment (the whole string when it has no underscore) is
`"two"`, `"three"` or `"four"` is converted to `2`, `3` or `4`; every other
string, and every non-string input, is returned unchanged. -/
theorem c9_label_normalization (s : String) (t : Nat) (m : Int) :
    obtain_numbers (PyVal.str s) =
      (if firstSeg s = "two" then PyVal.intVal 2
       else if firstSeg s = "three" then PyVal.intVal 3
       else if firstSeg s = "four" then PyVal.intVal 4
       else PyVal.str s) ∧
    obtain_numbers (PyVal.obj t) = PyVal.obj t ∧
    obtain_numbers (PyVal.intVal m) = PyVal.intVal m := by
  refine ⟨?_, rfl, rfl⟩
  by_cases h2 : firstSeg s = "two"
  · simp [obtain_numbers, numberdict, List.lookup, h2]
  · by_cases h3 : firstSeg s = "three"
    · simp [obtain_numbers, numberdict, List.lookup, h2, h3]
    · by_cases h4 : firstSeg s = "four"
      · simp [obtain_numbers, numberdict, List.lookup, h2, h3, h4]
      · have e2 : (firstSeg s == "two") = false := beq_eq_false_iff_ne.mpr h2
        have e3 : (firstSeg s == "three") = false := beq_eq_false_iff_ne.mpr h3
        have e4 : (firstSeg s == "four") = false := beq_eq_false_iff_ne.mpr h4
        simp [obtain_numbers, numberdict, List.lookup, e2, e3, e4, h2, h3, h4]

/-- C9 counterexample: the claim asserts that every string other than the
`"<word>_<unit>"` forms passes through unchanged, but the bare word
`"two"` — which contains no underscore, hence is not of that form — is
converted to the number `2` rather than returned unchanged
(`"two".split("_")[0]` is `"two"` itself). -/
theorem c9_counterexample :
    obtain_numbers (PyVal.str "two") = PyVal.intVal 2 ∧
      obtain_numbers (PyVal.str "two") ≠ PyVal.str "two" := by
  exact ⟨by decide, by decide⟩

/-- C2: evaluation of the loader's axis construction and of the visiting
order of `fulfil_orders` on a §6-shaped input with portion labels
`four_portions, two_portions` and recipes-per-box labels
`three_recipes, two_recipes`.  `pd.DataFrame.from_dict` puts the *outer*
(portion) labels in the columns (`Ordersdict[2]`) and the *inner*
(recipes-per-box) labels in the index (`Ordersdict[1]`), and the outer loop
of `fulfil_orders` runs over axis 1: the visited cells, projected to
(portion size, recipes per box), show the cell (2, 3) — portion size 2 —
allocated *before* the cell (4, 2) — portion size 4 — refuting the claim
that the cell with the larger portion size is always allocated first. -/
theorem c2_iteration_order_eval :
    load_axes [("four_portions", [("three_recipes", 0), ("two_recipes", 0)]),
        ("two_portions", [("three_recipes", 0), ("two_recipes", 0)])] = ([3, 2], [4, 2]) ∧
    (visitCells [[[0, 0], [0, 0]], [[0, 0], [0, 0]]] [3, 2] [4, 2]).map
        (fun c => (c.portions, c.recipes)) =
      [(4, 3), (2, 3), (4, 3), (2, 3), (4, 2), (2, 2), (4, 2), (2, 2)] :=
  ⟨by decide, by decide⟩

/-! ## Non-negativity (C3) -/

theorem getD_mem_of_lt {l : List Int} {i : Nat} (h : i < l.length) :
    l.getD i 0 ∈ l := by
  rw [List.getD_eq_getElem l 0 h]
  exact List.getElem_mem h

theorem mem_subtractAt {stock : List Int} {idxs : List Nat} {p : Int} {x : Int}
    (hx : x ∈ subtractAt stock idxs p) :
    ∃ i, i < stock.length ∧
      ((i ∈ idxs ∧ x = stock.getD i 0 - p) ∨ (i ∉ idxs ∧ x = stock.getD i 0)) := by
  simp only [subtractAt, List.mem_map, List.mem_range] at hx
  obtain ⟨i, hi, hx⟩ := hx
  by_cases hmem : i ∈ idxs
  · exact ⟨i, hi, Or.inl ⟨hmem, by rw [← hx, if_pos hmem]⟩⟩
  · exact ⟨i, hi, Or.inr ⟨hmem, by rw [← hx, if_neg hmem]⟩⟩

theorem allocLoop_nonneg (p : Int) (k : Nat) (n : Nat) :
    ∀ (stock : List Int), (∀ x ∈ stock, 0 ≤ x) →
      ∀ x ∈ (allocLoop p k stock n).1, 0 ≤ x := by
  induction n with
  | zero => intro stock hs x hx; exact hs x hx
  | succ n ih =>
      intro stock hs x hx
      simp only [allocLoop] at hx
      by_cases hcond :
          (selVals stock (recipeChoices stock k)).any (fun v => v < p) = true
      · rw [if_pos hcond] at hx
        exact hs x hx
      · rw [if_neg hcond] at hx
        refine ih (subtractAt stock (recipeChoices stock k) p) ?_ x hx
        intro y hy
        obtain ⟨i, hi, hcase⟩ := mem_subtractAt hy
        rcases hcase with ⟨hmem, rfl⟩ | ⟨_, rfl⟩
        · have hv : stock.getD i 0 ∈ selVals stock (recipeChoices stock k) :=
            List.mem_map.mpr ⟨i, hmem, rfl⟩
          have hge : ¬ (stock.getD i 0 < p) := by
            intro hlt
            exact hcond (List.any_eq_true.mpr ⟨_, hv, decide_eq_true hlt⟩)
          omega
        · exact hs _ (getD_mem_of_lt hi)

theorem allocate_recipes_nonneg (n : Nat) (stock : List Int) (p : Int) (k : Nat)
    (hs : ∀ x ∈ stock, 0 ≤ x) : ∀ x ∈ (allocate_recipes n stock p k).1, 0 ≤ x := by
  unfold allocate_recipes
  split
  · exact hs
  · exact allocLoop_nonneg p k n stock hs

theorem mem_maskVals {cats : List Cat} {stocks : List Int} {c : Cat} {x : Int}
    (hx : x ∈ maskVals cats stocks c) : x ∈ stocks := by
  simp only [maskVals, List.mem_map, List.mem_filter] at hx
  obtain ⟨⟨c0, v⟩, ⟨hzip, _⟩, rfl⟩ := hx
  exact (List.of_mem_zip hzip).2

theorem mem_scatter :
    ∀ (cs : List Cat) (vs : List Int) (c : Cat) (nv : List Int) (x : Int),
      x ∈ scatter cs vs c nv → x ∈ vs ∨ x ∈ nv := by
  intro cs
  induction cs with
  | nil => intro vs c nv x hx; simp [scatter] at hx
  | cons c0 cs ih =>
      intro vs c nv x hx
      cases vs with
      | nil => simp [scatter] at hx
      | cons v0 vs =>
          by_cases hc : c0 = c
          · rw [scatter, if_pos hc] at hx
            rcases List.mem_cons.mp hx with hx | hx
            · subst hx
              cases nv with
              | nil => exact Or.inl (by simp)
              | cons a t => exact Or.inr (by simp)
            · rcases ih vs c nv.tail x hx with h | h
              · exact Or.inl (List.mem_cons_of_mem _ h)
              · cases nv with
                | nil => simp at h
                | cons a t => exact Or.inr (List.mem_cons_of_mem _ h)
          · rw [scatter, if_neg hc] at hx
            rcases List.mem_cons.mp hx with hx | hx
            · exact Or.inl (hx ▸ List.mem_cons_self v0 vs)
            · rcases ih vs c nv x hx with h | h
              · exact Or.inl (List.mem_cons_of_mem _ h)
              · exact Or.inr h

theorem processCell_nonneg (cats : List Cat) (stocks : List Int) (cell : Cell)
    (hs : ∀ x ∈ stocks, 0 ≤ x) : ∀ x ∈ (processCell cats stocks cell).2, 0 ≤ x := by
  obtain ⟨c, p, r, n⟩ := cell
  have hscat : ∀ (cc : Cat) (nv : List Int), (∀ y ∈ nv, 0 ≤ y) →
      ∀ x ∈ scatter cats stocks cc nv, 0 ≤ x := by
    intro cc nv hnv x hx
    rcases mem_scatter cats stocks cc nv x hx with h | h
    · exact hs x h
    · exact hnv x h
  cases c
  · rw [processCell_veg]
    by_cases h : 0 < (allocate_recipes n (maskVals cats stocks Cat.vegetarian) p r).2
    · simp only [if_pos h]
      exact hs
    · simp only [if_neg h]
      exact hscat Cat.vegetarian _
        (allocate_recipes_nonneg n _ p r (fun y hy => hs y (mem_maskVals hy)))
  · rw [processCell_gourmet]
    by_cases h : 0 < (allocate_recipes n (maskVals cats stocks Cat.gourmet) p r).2
    · simp only [if_pos h]
      by_cases h2 : 0 < (allocate_recipes
          (allocate_recipes n (maskVals cats stocks Cat.gourmet) p r).2 stocks p r).2
      · simp only [if_pos h2]
        exact allocate_recipes_nonneg _ stocks p r hs
      · simp only [if_neg h2]
        exact allocate_recipes_nonneg _ stocks p r hs
    · simp only [if_neg h]
      exact hscat Cat.gourmet _
        (allocate_recipes_nonneg n _ p r (fun y hy => hs y (mem_maskVals hy)))

theorem fulfilCells_nonneg (cats : List Cat) :
    ∀ (cells : List Cell) (stocks : List Int), (∀ x ∈ stocks, 0 ≤ x) →
      ∀ x ∈ (fulfilCells cats stocks cells).2, 0 ≤ x := by
  intro cells
  induction cells with
  | nil => intro stocks hs x hx; exact hs x hx
  | cons cell rest ih =>
      intro stocks hs x hx
      rw [fulfilCells_cons] at hx
      rcases hp : processCell cats stocks cell with ⟨b, s⟩
      rw [hp] at hx
      have hsnn : ∀ y ∈ s, 0 ≤ y := by
        have hq := processCell_nonneg cats stocks cell hs
        rw [hp] at hq
        exact hq
      cases b
      · exact hsnn x hx
      · exact ih s hsnn x hx

/-- C3: non-negativity invariant — if every stock count is ≥ 0 on entry
(and portion sizes and, by typing, order and recipes-per-box counts are
non-negative), then every stock entry is still ≥ 0 after every call to
`allocate_recipes`, and after any (partial or complete) `fulfil_orders`
cascade over any cell list — in particular in the partially-mutated pool
returned when the cascade fails.  Intermediate states of a run are the
final pools of the cascade on prefixes of the cell list, so they are all
covered by the second conjunct. -/
theorem c3_nonnegativity :
    (∀ (n : Nat) (stock : List Int) (p : Int) (k : Nat),
        0 ≤ p → (∀ x ∈ stock, 0 ≤ x) →
        ∀ x ∈ (allocate_recipes n stock p k).1, 0 ≤ x) ∧
    (∀ (cats : List Cat) (stocks : List Int) (cells : List Cell),
        (∀ c ∈ cells, 0 ≤ c.portions) → (∀ x ∈ stocks, 0 ≤ x) →
        ∀ x ∈ (fulfilCells cats stocks cells).2, 0 ≤ x) :=
  ⟨fun n stock p k _ hs => allocate_recipes_nonneg n stock p k hs,
   fun cats stocks cells _ hs => fulfilCells_nonneg cats cells stocks hs⟩

theorem c3_witness :
    ((allocate_recipes 2 [3, 1] 1 1).1.all (fun v => decide (0 ≤ v))) = true ∧
    ((fulfilCells [Cat.vegetarian, Cat.gourmet] [2, 1]
        [⟨Cat.vegetarian, 1, 1, 1⟩, ⟨Cat.gourmet, 2, 1, 1⟩]).2.all
        (fun v => decide (0 ≤ v))) = true := by
  constructor
  · have h := c3_nonnegativity.1 2 [3, 1] 1 1 (by decide) (by decide)
    exact List.all_eq_true.mpr fun x hx => decide_eq_true (h x hx)
  · have h := c3_nonnegativity.2 [Cat.vegetarian, Cat.gourmet] [2, 1]
      [⟨Cat.vegetarian, 1, 1, 1⟩, ⟨Cat.gourmet, 2, 1, 1⟩] (by decide) (by decide)
    exact List.all_eq_true.mpr fun x hx => decide_eq_true (h x hx)

/-! ## Sorted-view machinery: relating the index-based selection to the
value-sorted view of the stock (used by C4 and C7) -/

theorem indexed_cons (a : Int) (l : List Int) :
    indexed (a :: l) = (0, a) :: (indexed l).map (fun q => (q.1 + 1, q.2)) := by
  unfold indexed
  rw [List.length_cons, List.range_succ_eq_map, List.map_cons, List.map_map,
    List.map_map]
  refine congrArg (List.cons _) (List.map_congr_left ?_)
  intro i _
  simp [List.getD_cons_succ]

theorem indexed_map_snd : ∀ (l : List Int), (indexed l).map Prod.snd = l := by
  intro l
  induction l with
  | nil => rfl
  | cons a l ih =>
      rw [indexed_cons, List.map_cons, List.map_map]
      show a :: (indexed l).map Prod.snd = a :: l
      rw [ih]

theorem indexed_map_fst (l : List Int) :
    (indexed l).map Prod.fst = List.range l.length := by
  unfold indexed
  rw [List.map_map]
  exact List.map_id _

theorem rankList_perm (stock : List Int) :
    List.Perm (rankList stock) (indexed stock) :=
  List.perm_insertionSort pairGe (indexed stock)

theorem length_indexed (l : List Int) : (indexed l).length = l.length := by
  simp [indexed]

theorem length_rankList (l : List Int) : (rankList l).length = l.length := by
  rw [(rankList_perm l).length_eq, length_indexed]

theorem mem_indexed {l : List Int} {i : Nat} {v : Int} :
    (i, v) ∈ indexed l ↔ i < l.length ∧ v = l.getD i 0 := by
  simp only [indexed, List.mem_map, List.mem_range, Prod.mk.injEq]
  constructor
  · rintro ⟨j, hj, rfl, rfl⟩
    exact ⟨hj, rfl⟩
  · rintro ⟨h1, rfl⟩
    exact ⟨i, h1, rfl, rfl⟩

theorem mem_rankList {l : List Int} {i : Nat} {v : Int}
    (h : (i, v) ∈ rankList l) : i < l.length ∧ v = l.getD i 0 :=
  mem_indexed.mp ((rankList_perm l).mem_iff.mp h)

theorem rankList_sorted (l : List Int) : List.Sorted pairGe (rankList l) :=
  List.sorted_insertionSort pairGe (indexed l)

theorem map_snd_orderedInsert :
    ∀ (L : List (Nat × Int)) (q : Nat × Int),
      (List.orderedInsert pairGe q L).map Prod.snd =
        List.orderedInsert geInt q.2 (L.map Prod.snd) := by
  intro L
  induction L with
  | nil => intro q; rfl
  | cons b t ih =>
      intro q
      simp only [List.orderedInsert, List.map_cons]
      by_cases h : pairGe q b
      · rw [if_pos h, if_pos (show geInt q.2 b.2 from h)]
        rfl
      · rw [if_neg h, if_neg (show ¬ geInt q.2 b.2 from h)]
        rw [List.map_cons, ih]

theorem map_snd_insertionSort :
    ∀ (L : List (Nat × Int)),
      (List.insertionSort pairGe L).map Prod.snd =
        List.insertionSort geInt (L.map Prod.snd) := by
  intro L
  induction L with
  | nil => rfl
  | cons q L ih =>
      simp only [List.insertionSort, List.map_cons]
      rw [map_snd_orderedInsert, ih]

theorem rankList_map_snd (l : List Int) :
    (rankList l).map Prod.snd = sortDesc l := by
  rw [rankList, map_snd_insertionSort, indexed_map_snd, sortDesc]

theorem sortDesc_perm (l : List Int) : List.Perm (sortDesc l) l :=
  List.perm_insertionSort geInt l

theorem sortDesc_sorted (l : List Int) : List.Sorted geInt (sortDesc l) :=
  List.sorted_insertionSort geInt l

theorem sortDesc_congr {l₁ l₂ : List Int} (h : List.Perm l₁ l₂) :
    sortDesc l₁ = sortDesc l₂ :=
  List.eq_of_perm_of_sorted ((sortDesc_perm l₁).trans (h.trans (sortDesc_perm l₂).symm))
    (sortDesc_sorted l₁) (sortDesc_sorted l₂)

theorem rankList_fst_nodup (l : List Int) : ((rankList l).map Prod.fst).Nodup := by
  have hp : List.Perm ((rankList l).map Prod.fst) ((indexed l).map Prod.fst) :=
    (rankList_perm l).map Prod.fst
  rw [indexed_map_fst] at hp
  exact hp.nodup_iff.mpr (List.nodup_range _)

theorem mem_take_rankList_getD {l : List Int} {K : Nat} {q : Nat × Int}
    (h : q ∈ (rankList l).take K) : l.getD q.1 0 = q.2 := by
  obtain ⟨i, v⟩ := q
  exact (mem_rankList (List.take_subset K (rankList l) h)).2.symm

theorem selVals_recipeChoices (stock : List Int) (k : Nat) :
    selVals stock (recipeChoices stock k) =
      (sortDesc stock).take (effK stock.length k) := by
  unfold selVals recipeChoices
  rw [List.map_map, ← rankList_map_snd, ← List.map_take]
  exact List.map_congr_left fun q hq => mem_take_rankList_getD hq

theorem subtractAt_eq_map_indexed (stock : List Int) (idxs : List Nat) (p : Int) :
    subtractAt stock idxs p =
      (indexed stock).map (fun q => if q.1 ∈ idxs then q.2 - p else q.2) := by
  unfold subtractAt indexed
  rw [List.map_map]
  rfl

theorem length_subtractAt (stock : List Int) (idxs : List Nat) (p : Int) :
    (subtractAt stock idxs p).length = stock.length := by
  simp [subtractAt]

theorem subtractAt_choices_perm (stock : List Int) (k : Nat) (p : Int) :
    List.Perm (subtractAt stock (recipeChoices stock k) p)
      (((sortDesc stock).take (effK stock.length k)).map (fun v => v - p) ++
        (sortDesc stock).drop (effK stock.length k)) := by
  have h1 := subtractAt_eq_map_indexed stock (recipeChoices stock k) p
  have h2 : List.Perm ((indexed stock).map
        (fun q => if q.1 ∈ recipeChoices stock k then q.2 - p else q.2))
      ((rankList stock).map
        (fun q => if q.1 ∈ recipeChoices stock k then q.2 - p else q.2)) :=
    ((rankList_perm stock).map _).symm
  have h3 : (rankList stock).map
        (fun q => if q.1 ∈ recipeChoices stock k then q.2 - p else q.2) =
      ((rankList stock).take (effK stock.length k)).map
          (fun q => if q.1 ∈ recipeChoices stock k then q.2 - p else q.2) ++
        ((rankList stock).drop (effK stock.length k)).map
          (fun q => if q.1 ∈ recipeChoices stock k then q.2 - p else q.2) := by
    rw [← List.map_append, List.take_append_drop]
  have h4 : ((rankList stock).take (effK stock.length k)).map
        (fun q => if q.1 ∈ recipeChoices stock k then q.2 - p else q.2) =
      ((rankList stock).take (effK stock.length k)).map (fun q => q.2 - p) := by
    refine List.map_congr_left fun q hq => ?_
    have hin : q.1 ∈ recipeChoices stock k := List.mem_map_of_mem Prod.fst hq
    rw [if_pos hin]
  have h5 : ((rankList stock).drop (effK stock.length k)).map
        (fun q => if q.1 ∈ recipeChoices stock k then q.2 - p else q.2) =
      ((rankList stock).drop (effK stock.length k)).map Prod.snd := by
    refine List.map_congr_left fun q hq => ?_
    have hnot : q.1 ∉ recipeChoices stock k := by
      intro hmem
      have hnd := rankList_fst_nodup stock
      rw [← List.take_append_drop (effK stock.length k) (rankList stock),
        List.map_append] at hnd
      exact List.disjoint_of_nodup_append hnd hmem (List.mem_map_of_mem Prod.fst hq)
    rw [if_neg hnot]
  have h6 : ((rankList stock).take (effK stock.length k)).map (fun q => q.2 - p) =
      ((sortDesc stock).take (effK stock.length k)).map (fun v => v - p) := by
    rw [← rankList_map_snd, ← List.map_take, List.map_map]
    rfl
  have h7 : ((rankList stock).drop (effK stock.length k)).map Prod.snd =
      (sortDesc stock).drop (effK stock.length k) := by
    rw [← rankList_map_snd, List.map_drop]
  rw [h1]
  refine h2.trans ?_
  rw [h3, h4, h5, h6, h7]

theorem allocLoop_eq_allocSorted (p : Int) (k : Nat) :
    ∀ (n : Nat) (stock : List Int),
      (allocLoop p k stock n).2 =
        allocSorted p (effK stock.length k) (sortDesc stock) n := by
  intro n
  induction n with
  | zero => intro stock; rfl
  | succ n ih =>
      intro stock
      simp only [allocLoop, allocSorted]
      rw [selVals_recipeChoices]
      by_cases hcond :
          ((sortDesc stock).take (effK stock.length k)).any (fun v => v < p) = true
      · rw [if_pos hcond, if_pos hcond]
      · rw [if_neg hcond, if_neg hcond]
        rw [ih]
        have hstep : sortDesc (subtractAt stock (recipeChoices stock k) p) =
            stepSorted p (effK stock.length k) (sortDesc stock) :=
          sortDesc_congr (subtractAt_choices_perm stock k p)
        rw [length_subtractAt, hstep]

/-! ## Monotonicity of the sorted-view allocation (C7) -/

theorem allocSorted_le (p : Int) (kk : Nat) :
    ∀ (n : Nat) (l : List Int), allocSorted p kk l n ≤ n := by
  intro n
  induction n with
  | zero => intro l; exact Nat.le_refl 0
  | succ n ih =>
      intro l
      simp only [allocSorted]
      split
      · exact Nat.le_refl _
      · exact Nat.le_succ_of_le (ih _)

theorem orderedInsert_forall₂_right :
    ∀ (t s : List Int) (a y : Int), List.Sorted geInt (a :: s) → a ≤ y →
      List.Forall₂ (· ≤ ·) s t →
      List.Forall₂ (· ≤ ·) (a :: s) (List.orderedInsert geInt y t) := by
  intro t
  induction t with
  | nil =>
      intro s a y _ hay hst
      cases hst
      exact List.Forall₂.cons hay List.Forall₂.nil
  | cons b t2 ih =>
      intro s a y hsort hay hst
      cases hst with
      | cons h1 h2 =>
          simp only [List.orderedInsert]
          by_cases h : geInt y b
          · rw [if_pos h]
            exact .cons hay (.cons h1 h2)
          · rw [if_neg h]
            refine .cons (le_trans hay (le_of_not_le h)) ?_
            refine ih _ _ y hsort.of_cons ?_ h2
            exact le_trans (List.rel_of_sorted_cons hsort _ (List.mem_cons_self _ _)) hay

theorem orderedInsert_forall₂_left :
    ∀ (s t : List Int) (x b : Int), List.Sorted geInt (b :: t) → x ≤ b →
      List.Forall₂ (· ≤ ·) s t →
      List.Forall₂ (· ≤ ·) (List.orderedInsert geInt x s) (b :: t) := by
  intro s
  induction s with
  | nil =>
      intro t x b _ hxb hst
      cases hst
      exact .cons hxb .nil
  | cons a2 s2 ih =>
      intro t x b hsort hxb hst
      cases hst with
      | cons h1 h2 =>
          simp only [List.orderedInsert]
          by_cases h : geInt x a2
          · rw [if_pos h]
            exact .cons hxb (.cons h1 h2)
          · rw [if_neg h]
            refine .cons
              (le_trans h1 (List.rel_of_sorted_cons hsort _ (List.mem_cons_self _ _))) ?_
            exact ih _ x _ hsort.of_cons (le_trans (le_of_not_le h) h1) h2

theorem orderedInsert_forall₂ :
    ∀ (s t : List Int), List.Sorted geInt s → List.Sorted geInt t →
      List.Forall₂ (· ≤ ·) s t → ∀ (x y : Int), x ≤ y →
      List.Forall₂ (· ≤ ·) (List.orderedInsert geInt x s)
        (List.orderedInsert geInt y t) := by
  intro s
  induction s with
  | nil =>
      intro t _ _ hst x y hxy
      cases hst
      exact .cons hxy .nil
  | cons a s2 ih =>
      intro t hs ht hst x y hxy
      cases hst with
      | @cons _ b _ t2 h1 h2 =>
          simp only [List.orderedInsert]
          by_cases hx : geInt x a
          · rw [if_pos hx]
            by_cases hy : geInt y b
            · rw [if_pos hy]
              exact .cons hxy (.cons h1 h2)
            · rw [if_neg hy]
              refine .cons (le_trans hxy (le_of_not_le hy)) ?_
              exact orderedInsert_forall₂_right _ _ a y hs (le_trans hx hxy) h2
          · rw [if_neg hx]
            by_cases hy : geInt y b
            · rw [if_pos hy]
              refine .cons (le_trans h1 hy) ?_
              exact orderedInsert_forall₂_left _ _ x b ht
                (le_trans (le_of_not_le hx) h1) h2
            · rw [if_neg hy]
              exact .cons h1 (ih _ hs.of_cons ht.of_cons h2 x y hxy)

theorem sortDesc_forall₂ :
    ∀ {u v : List Int}, List.Forall₂ (· ≤ ·) u v →
      List.Forall₂ (· ≤ ·) (sortDesc u) (sortDesc v) := by
  intro u v h
  induction h with
  | nil => exact .nil
  | cons hxy htail ih =>
      simp only [sortDesc, List.insertionSort]
      exact orderedInsert_forall₂ _ _ (List.sorted_insertionSort _ _)
        (List.sorted_insertionSort _ _) ih _ _ hxy

theorem forall₂_map_sub {A B : List Int} (p : Int)
    (h : List.Forall₂ (· ≤ ·) A B) :
    List.Forall₂ (· ≤ ·) (A.map (fun v => v - p)) (B.map (fun v => v - p)) := by
  induction h with
  | nil => exact .nil
  | cons hxy _ ih => exact .cons (sub_le_sub_right hxy p) ih

theorem stepSorted_forall₂ {la lb : List Int} (p : Int) (kk : Nat)
    (h : List.Forall₂ (· ≤ ·) la lb) :
    List.Forall₂ (· ≤ ·) (stepSorted p kk la) (stepSorted p kk lb) := by
  apply sortDesc_forall₂
  exact List.rel_append (forall₂_map_sub p (List.forall₂_take kk h))
    (List.forall₂_drop kk h)

theorem any_lt_of_forall₂ {A B : List Int} {p : Int}
    (h : List.Forall₂ (· ≤ ·) A B) (hB : B.any (fun v => v < p) = true) :
    A.any (fun v => v < p) = true := by
  induction h with
  | nil => simp at hB
  | cons hxy htail ih =>
      simp only [List.any_cons, Bool.or_eq_true] at hB ⊢
      rcases hB with hb | hB
      · exact Or.inl (decide_eq_true (lt_of_le_of_lt hxy (of_decide_eq_true hb)))
      · exact Or.inr (ih hB)

theorem allocSorted_mono (p : Int) (kk : Nat) :
    ∀ (n : Nat) {la lb : List Int}, List.Forall₂ (· ≤ ·) la lb →
      allocSorted p kk lb n ≤ allocSorted p kk la n := by
  intro n
  induction n with
  | zero => intro la lb _; exact Nat.le_refl 0
  | succ n ih =>
      intro la lb h
      simp only [allocSorted]
      by_cases ha : (la.take kk).any (fun v => v < p) = true
      · rw [if_pos ha]
        split
        · exact Nat.le_refl _
        · exact Nat.le_succ_of_le (allocSorted_le p kk n _)
      · rw [if_neg ha]
        have hb : ¬ (lb.take kk).any (fun v => v < p) = true := fun hB =>
          ha (any_lt_of_forall₂ (List.forall₂_take kk h) hB)
        rw [if_neg hb]
        exact ih (stepSorted_forall₂ p kk h)

theorem forall₂_le_refl : ∀ (l : List Int), List.Forall₂ (· ≤ ·) l l := by
  intro l
  induction l with
  | nil => exact .nil
  | cons a l ih => exact .cons (le_refl a) ih

theorem forall₂_set_of_le :
    ∀ (l : List Int) (i : Nat) (v : Int), i < l.length → l.getD i 0 ≤ v →
      List.Forall₂ (· ≤ ·) l (l.set i v) := by
  intro l
  induction l with
  | nil => intro i v h _; simp at h
  | cons a l ih =>
      intro i v hi hv
      cases i with
      | zero =>
          simp only [List.set]
          exact .cons (by simpa using hv) (forall₂_le_refl l)
      | succ i =>
          simp only [List.set]
          exact .cons (le_refl a) (ih i v (by simpa using hi) (by simpa using hv))

/-- C7: monotonicity of `allocate_recipes` — raising the value of any single
stock entry, holding the order count, portion size, recipes-per-box and all
other entries fixed, never yields a strictly larger `unmet_count`. -/
theorem c7_monotonicity (stock : List Int) (i : Nat) (v : Int) (p : Int)
    (k n : Nat) (hi : i < stock.length) (hv : stock.getD i 0 ≤ v) :
    (allocate_recipes n (stock.set i v) p k).2 ≤ (allocate_recipes n stock p k).2 := by
  have hlen : (stock.set i v).length = stock.length := List.length_set stock i v
  unfold allocate_recipes
  by_cases hg : stock.length < k
  · rw [if_pos hg, if_pos (by rw [hlen]; exact hg)]
  · rw [if_neg hg, if_neg (by rw [hlen]; exact hg)]
    rw [allocLoop_eq_allocSorted, allocLoop_eq_allocSorted, hlen]
    exact allocSorted_mono p (effK stock.length k) n
      (sortDesc_forall₂ (forall₂_set_of_le stock i v hi hv))

theorem c7_witness :
    0 < ([0, 3] : List Int).length ∧ ([0, 3] : List Int).getD 0 0 ≤ 5 ∧
    (allocate_recipes 2 (([0, 3] : List Int).set 0 5) 2 1).2 ≤
      (allocate_recipes 2 [0, 3] 2 1).2 :=
  ⟨by decide, by decide, c7_monotonicity [0, 3] 0 5 2 1 2 (by decide) (by decide)⟩

/-! ## Greedy step characterization (C4) -/

/-- C4 (amended: `recipes_per_box ≥ 1`): in `allocate_recipes` with
`len(stock) ≥ recipes_per_box ≥ 1`, each round selects exactly
`recipes_per_box` entries, and every unselected entry's stock is ≤ every
selected entry's stock (a top-k selection by value); orders are processed
one at a time counting down: if some selected entry's stock is below the
portion size (i.e. the minimum of the selected stocks is `< portion_size`)
the call stops immediately, returning the stock as mutated by the
previously completed orders only, with `unmet_count` equal to the number of
orders not yet processed counting the current one; otherwise the portion
size is subtracted from each selected entry and processing continues,
returning `unmet_count = 0` when all orders complete. -/
theorem c4_greedy_characterization (stock : List Int) (p : Int) (k n : Nat)
    (hk : 1 ≤ k) (hlen : k ≤ stock.length) :
    (recipeChoices stock k).length = k ∧
    (∀ j, j < stock.length → j ∉ recipeChoices stock k →
      ∀ i ∈ recipeChoices stock k, stock.getD j 0 ≤ stock.getD i 0) ∧
    allocate_recipes (n + 1) stock p k =
      (if (selVals stock (recipeChoices stock k)).any (fun v => v < p)
       then (stock, n + 1)
       else allocate_recipes n (subtractAt stock (recipeChoices stock k) p) p k) ∧
    allocate_recipes 0 stock p k = (stock, 0) := by
  have hK : effK stock.length k = k := if_neg (by omega)
  refine ⟨?_, ?_, ?_, allocate_recipes_zero stock p k⟩
  · rw [recipeChoices, hK, List.length_map, List.length_take, length_rankList]
    omega
  · intro j hj hnot i hi
    rw [recipeChoices, hK] at hi hnot
    obtain ⟨q, hqtake, rfl⟩ := List.mem_map.mp hi
    have hqv : stock.getD q.1 0 = q.2 := mem_take_rankList_getD hqtake
    have hjmem : (j, stock.getD j 0) ∈ rankList stock :=
      (rankList_perm stock).mem_iff.mpr (mem_indexed.mpr ⟨hj, rfl⟩)
    have hjsplit : (j, stock.getD j 0) ∈
        (rankList stock).take k ++ (rankList stock).drop k := by
      rw [List.take_append_drop]
      exact hjmem
    have hjdrop : (j, stock.getD j 0) ∈ (rankList stock).drop k := by
      rcases List.mem_append.mp hjsplit with h | h
      · exact absurd (List.mem_map_of_mem Prod.fst h) hnot
      · exact h
    have hsorted : List.Sorted pairGe ((rankList stock).take k ++ (rankList stock).drop k) := by
      rw [List.take_append_drop]
      exact rankList_sorted stock
    have hrel := (List.pairwise_append.mp hsorted).2.2 q hqtake _ hjdrop
    rw [hqv]
    exact hrel
  · unfold allocate_recipes
    rw [if_neg (show ¬ stock.length < k by omega),
      if_neg (show ¬ (subtractAt stock (recipeChoices stock k) p).length < k by
        rw [length_subtractAt]; omega)]
    simp only [allocLoop]

/-- C4 counterexample: with `recipes_per_box = 0` (and any stock, so
`len(stock) ≥ recipes_per_box` holds) the code does *not* select
`recipes_per_box = 0` entries with the greatest stock: the numpy slice
`argpartition(stock, -0)[-0:]` is the whole array, so every entry is
selected, and an order fails whenever the global minimum is below the
portion size — here `allocate_recipes(1, [5], 6, 0)` returns
`unmet_count = 1`, although under the claim's procedure (zero selected
entries, so no selected entry below the portion size) the order would
complete with `unmet_count = 0`. -/
theorem c4_counterexample :
    recipeChoices [5] 0 = [0] ∧ allocate_recipes 1 [5] 6 0 = ([5], 1) :=
  ⟨by decide, by decide⟩

theorem c4_witness :
    (recipeChoices [2, 1] 1).length = 1 ∧
    allocate_recipes 1 [2, 1] 1 1 =
      (if (selVals [2, 1] (recipeChoices [2, 1] 1)).any (fun v => v < 1)
       then ([2, 1], 1)
       else allocate_recipes 0 (subtractAt [2, 1] (recipeChoices [2, 1] 1) 1) 1 1) :=
  ⟨(c4_greedy_characterization [2, 1] 1 1 0 (by decide) (by decide)).1,
    (c4_greedy_characterization [2, 1] 1 1 0 (by decide) (by decide)).2.2.1⟩
